import Mathlib

/-
Verification of the numeric utility routines of `hmmlearn/utils.py`:
`normalize`, `exp_mask_zero`, `log_mask_zero` and `logsumexp`.

Modelling conventions.

* `normalize` only performs field arithmetic (adding the machine epsilon,
  summation, division), so it is embedded over exact rationals `ℚ`; the
  IEEE-754 machine epsilon `np.finfo(float).eps = 2⁻⁵²` is the rational
  constant `epsQ`.  A 2-D numpy array of shape (m, n) is a function
  `Fin m → Fin n → ℚ`; a 1-D array is `Fin k → ℚ`.  Each python statement
  that can raise (`a[i][j] = v` on an out-of-range index) is embedded as an
  `Except Err` step, chained in the source's evaluation order.
  In `ℚ` the division `x / 0` is the total function returning `0`, whereas
  numpy would produce `inf`/`nan` with a warning; every theorem that touches
  a division proves its divisor nonzero, so this difference is never used.

* `exp_mask_zero`, `log_mask_zero` and `logsumexp` manipulate values for
  which the special IEEE values matter (`np.log(0) = -inf`,
  `np.log(x) = nan` for `x < 0`, `inf - inf = nan`, underflow of `np.exp`
  to an exact `0.0`).  They are embedded over the type `F` of idealized
  doubles: an exact real, `+inf`, `-inf` or `nan`.  Finite arithmetic is
  exact (no rounding is modelled) except for the two float phenomena the
  source code is explicitly written around: `np.exp` underflows to the
  exact float `0.0` when the true result is below the smallest positive
  denormal (threshold `minPos`) and overflows to `+inf` above `maxFin`.
  1-D arrays are `List F`; for a 1-D array with `axis = 0` the source's
  `np.rollaxis(a, axis)` is the identity and the reductions `a.max(axis=0)`
  and `.sum(axis=0)` are the scalar maximum and sum of the list.
-/

set_option autoImplicit false
set_option maxHeartbeats 1000000

namespace HmmUtils

/-! ### Data model for `normalize` (exact rationals) -/

/-- IEEE-754 double machine epsilon, `np.finfo(float).eps` = 2⁻⁵². -/
def epsQ : ℚ := 1 / 2 ^ 52

/-- Python exceptions surfaced by the embedded code. -/
inductive Err where
  | indexError
  | typeError
  | axisError
  | valueError
  deriving DecidableEq, Repr

/-- A 2-D numpy array of doubles, shape `(m, n)`. -/
abbrev Mat (m n : ℕ) : Type := Fin m → Fin n → ℚ

/-- The assignment `a[i][j] = v` with numpy bounds checking: an index out of
range raises `IndexError`. -/
def setEntry (m n : ℕ) (a : Mat m n) (i j : ℕ) (v : ℚ) : Except Err (Mat m n) :=
  if i < m ∧ j < n then
    Except.ok (fun i' j' => if i'.1 = i ∧ j'.1 = j then v else a i' j')
  else
    Except.error Err.indexError

/-- `a.sum(1)` at row `i` (also the divisor slice for `axis=1`). -/
def rowSum {m n : ℕ} (a : Mat m n) (i : Fin m) : ℚ := ∑ j, a i j

/-- `a.sum(0)` at column `j`. -/
def colSum {m n : ℕ} (a : Mat m n) (j : Fin n) : ℚ := ∑ i, a i j

/-- `a.sum()` over the whole array. -/
def totalSum {m n : ℕ} (a : Mat m n) : ℚ := ∑ i, ∑ j, a i j

/-- The source's four structural assignments
`a[0][2] = v; a[1][0] = v; a[2][0] = v; a[2][1] = v`
(performed once with `v = 0.0` before summation and once with
`v = np.finfo(float).eps` after the division), in source order. -/
def applyMask (m n : ℕ) (a : Mat m n) (v : ℚ) : Except Err (Mat m n) := do
  let a ← setEntry m n a 0 2 v
  let a ← setEntry m n a 1 0 v
  let a ← setEntry m n a 2 0 v
  setEntry m n a 2 1 v

/-- `normalize(a, axis)` from `hmmlearn/utils.py` on a 2-D array.

Python semantics modelled statement by statement:
* `a += np.finfo(float).eps` — in-place add, modelled functionally;
* the four structural-zero assignments (may raise `IndexError`);
* `a_sum = a.sum(axis)`; the guard `if axis and a.ndim > 1:` is *falsy*
  for `axis=None` and for `axis=0` (Python truthiness of the int `0`), so
  the zero-divisor replacement `a_sum[a_sum == 0] = 1` and the reshape run
  only for `axis=1` here (`a.ndim = 2 > 1`);
* `a /= a_sum` with numpy broadcasting: for `axis=None` a scalar divisor,
  for `axis=0` the column-sum vector (shape `(n,)`, broadcast over rows),
  for `axis=1` the reshaped row-sum column (shape `(m, 1)`);
* the four structural assignments again, with `eps`.
An `axis` that is neither `None`, `0` nor `1` would make `a.sum(axis)`
raise; negative axes are not modelled. -/
def normalize2 (m n : ℕ) (a : Mat m n) (axis : Option ℕ) : Except Err (Mat m n) := do
  let a0 : Mat m n := fun i j => a i j + epsQ
  let a1 ← applyMask m n a0 0
  let b ←
    match axis with
    | none => Except.ok (fun i j => a1 i j / totalSum a1)
    | some 0 => Except.ok (fun i j => a1 i j / colSum a1 j)
    | some 1 =>
        Except.ok (fun i j => a1 i j / (if rowSum a1 i = 0 then 1 else rowSum a1 i))
    | some _ => Except.error Err.axisError
  applyMask m n b epsQ

/-- The subscript `a[i]` on a 1-D numpy array: yields a `numpy.float64`
scalar (a copy of the element), or raises `IndexError` when `i` is out of
range. -/
def getItem1 (k : ℕ) (a : Fin k → ℚ) (i : ℕ) : Except Err ℚ :=
  if h : i < k then Except.ok (a ⟨i, h⟩) else Except.error Err.indexError

/-- Item assignment `x[j] = v` on a `numpy.float64` scalar: always raises
`TypeError` ("'numpy.float64' object does not support item assignment"),
whatever the index and value.  The result type is free because no value is
ever produced. -/
def scalarSetItem {α : Type} (_x : ℚ) (_j : ℕ) (_v : ℚ) : Except Err α :=
  Except.error Err.typeError

/-- `normalize(a, axis)` on a 1-D array of length `k`.

Python semantics statement by statement: `a += np.finfo(float).eps`
(in place, cannot fail); then `a[0][2] = 0.0` — the outer subscript
`a[0]` is evaluated first (`IndexError` when `k = 0`), and the item
assignment `[2] = 0.0` is then attempted on the resulting `numpy.float64`
scalar, which always raises `TypeError`.  No later statement of
`normalize` is reachable on a 1-D array, and `axis` is never consulted
before the failure. -/
def normalize1 (k : ℕ) (a : Fin k → ℚ) (_axis : Option ℕ) : Except Err (Fin k → ℚ) := do
  let a0 : Fin k → ℚ := fun i => a i + epsQ
  let x ← getItem1 k a0 0
  scalarSetItem x 2 0

/-- The four cell positions written by the structural mask of `normalize`:
rows `a[0][2]`, `a[1][0]`, `a[2][0]`, `a[2][1]`. -/
def maskPairs : Finset (ℕ × ℕ) := {(0, 2), (1, 0), (2, 0), (2, 1)}

/-- Normal form of the four chained structural assignments when all four
indices are in range. -/
def maskWith {m n : ℕ} (a : Mat m n) (v : ℚ) : Mat m n :=
  fun i j => if (i.1, j.1) ∈ maskPairs then v else a i j

/-- The array as it stands when `a_sum` is computed: epsilon added
everywhere, the four structural cells forced to exactly `0`. -/
def preMasked {m n : ℕ} (a : Mat m n) : Mat m n :=
  maskWith (fun i j => a i j + epsQ) 0

/-- The number of structurally masked cells in row `i`. -/
def rowMaskCount (n : ℕ) (i : ℕ) : ℕ :=
  (Finset.univ.filter fun j : Fin n => (i, j.1) ∈ maskPairs).card

/-- The number of structurally unmasked cells in row `i`. -/
def rowFreeCount (n : ℕ) (i : ℕ) : ℕ :=
  (Finset.univ.filter fun j : Fin n => (i, j.1) ∉ maskPairs).card

/-! ### Data model for the log-domain helpers (idealized doubles) -/

/-- An idealized IEEE-754 double: an exact real number, an infinity or a
NaN. -/
inductive F where
  | finite : ℝ → F
  | posInf : F
  | negInf : F
  | nan : F

/-- Machine epsilon 2⁻⁵² as a real, `np.finfo(float).eps`. -/
noncomputable def epsR : ℝ := 1 / 2 ^ 52

/-- Positive threshold below which `np.exp` underflows to the exact float
`0.0` (half the smallest positive denormal, 2⁻¹⁰⁷⁵). -/
noncomputable def minPos : ℝ := 1 / 2 ^ 1075

/-- Threshold at which `np.exp` overflows to `+inf` (2¹⁰²⁴). -/
noncomputable def maxFin : ℝ := 2 ^ 1024

/-- `np.exp`, elementwise model: exact on representable finite inputs,
underflow to the exact `0.0` below `minPos`, overflow to `+inf` above
`maxFin`; `exp(-inf) = 0.0`, `exp(inf) = inf`, `exp(nan) = nan`. -/
noncomputable def fexp : F → F
  | F.finite x =>
      if Real.exp x < minPos then F.finite 0
      else if maxFin < Real.exp x then F.posInf
      else F.finite (Real.exp x)
  | F.posInf => F.posInf
  | F.negInf => F.finite 0
  | F.nan => F.nan

/-- `np.log`, elementwise model: `log(x) = nan` for `x < 0`,
`log(0) = -inf`, exact on positive finite inputs; `log(inf) = inf`,
`log(-inf) = nan`, `log(nan) = nan`. -/
noncomputable def flog : F → F
  | F.finite x =>
      if x < 0 then F.nan
      else if x = 0 then F.negInf
      else F.finite (Real.log x)
  | F.posInf => F.posInf
  | F.negInf => F.nan
  | F.nan => F.nan

open Classical in
/-- The masking assignment `out[out == 0] = np.finfo(float).eps` on one
element: the comparison `== 0` holds exactly for the float zero (`nan` and
the infinities compare false). -/
noncomputable def maskZero (y : F) : F :=
  if y = F.finite 0 then F.finite epsR else y

/-- The masking assignment `out[np.isnan(out)] = 0.0` on one element. -/
def maskNaN : F → F
  | F.nan => F.finite 0
  | y => y

/-- `exp_mask_zero(a)`: `out = np.exp(a)` then `out[out == 0] = eps`. -/
noncomputable def exp_mask_zero (a : List F) : List F :=
  (a.map fexp).map maskZero

/-- `log_mask_zero(a)`: `out = np.log(a)` then `out[np.isnan(out)] = 0.0`. -/
noncomputable def log_mask_zero (a : List F) : List F :=
  (a.map flog).map maskNaN

/-- IEEE negation. -/
def fneg : F → F
  | F.finite x => F.finite (-x)
  | F.posInf => F.negInf
  | F.negInf => F.posInf
  | F.nan => F.nan

/-- IEEE addition on idealized doubles: NaN propagates, opposite
infinities give NaN, an infinity absorbs finite values. -/
def fadd : F → F → F
  | F.nan, _ => F.nan
  | _, F.nan => F.nan
  | F.posInf, F.negInf => F.nan
  | F.negInf, F.posInf => F.nan
  | F.posInf, _ => F.posInf
  | _, F.posInf => F.posInf
  | F.negInf, _ => F.negInf
  | _, F.negInf => F.negInf
  | F.finite x, F.finite y => F.finite (x + y)

/-- IEEE subtraction `x - y = x + (-y)`. -/
def fsub (x y : F) : F := fadd x (fneg y)

/-- numpy's maximum as used by `a.max(axis=0)`: NaN propagates, otherwise
the order `-inf < finite < inf`. -/
noncomputable def fmax : F → F → F
  | F.nan, _ => F.nan
  | _, F.nan => F.nan
  | F.posInf, _ => F.posInf
  | _, F.posInf => F.posInf
  | F.negInf, y => y
  | x, F.negInf => x
  | F.finite x, F.finite y => F.finite (max x y)

/-- `a.sum(axis=0)` for a 1-D array: left fold of IEEE addition starting
from `0.0`. -/
def listSum (a : List F) : F := a.foldl fadd (F.finite 0)

/-- `a.max(axis=0)` for a 1-D array; on an empty array numpy raises
`ValueError` (zero-size reduction). -/
noncomputable def listMax : List F → Except Err F
  | [] => Except.error Err.valueError
  | h :: t => Except.ok (t.foldl fmax h)

/-- `logsumexp(a, axis=0)` from `hmmlearn/utils.py` on a 1-D array
(`np.rollaxis(a, 0)` is the identity there):
`a_max = a.max(axis=0)`; `out = np.log(exp_mask_zero(a - a_max).sum(axis=0))`;
`out += a_max`. -/
noncomputable def logsumexp (a : List F) : Except Err F := do
  let aMax ← listMax a
  let shifted := a.map fun x => fsub x aMax
  let s := listSum (exp_mask_zero shifted)
  Except.ok (fadd (flog s) aMax)

/-- A double that is finite or `-inf`, as produced by log-domain code
(`log 0 = -inf`): `some v` stands for the finite value `v`, `none` for
`-inf`.  Used to quantify over exactly the arrays for which the
log-sum-exp contract of `logsumexp` can hold. -/
def ofOpt : Option ℝ → F
  | none => F.negInf
  | some v => F.finite v

/-- The mathematical exponential of a finite-or-`-inf` value, the
reference side of the `logsumexp` contract: `exp(-inf) = 0`. -/
noncomputable def expOpt : Option ℝ → ℝ
  | none => 0
  | some v => Real.exp v

/-- The value `exp_mask_zero` produces for a max-shifted finite-or-`-inf`
element: `-inf` exponentiates to the exact `0.0` and is masked to machine
epsilon; a finite value is masked only when `np.exp` underflows. -/
noncomputable def maskedExpOpt : Option ℝ → ℝ
  | none => epsR
  | some y => if Real.exp y < minPos then epsR else Real.exp y

/-- numpy's maximum on the finite-or-`-inf` representation: `-inf` is the
identity of the maximum. -/
noncomputable def omax : Option ℝ → Option ℝ → Option ℝ
  | none, y => y
  | x, none => x
  | some a, some b => some (max a b)

/-- Heap model for the purity claim about `exp_mask_zero`: the store is the
list of live arrays, an array reference is an index into it.  The body
`out = np.exp(a); out[out == 0] = eps; return out` allocates a fresh array
for `out` (`np.exp` always returns a new array) and the masking assignment
writes through the fresh reference only.  Returns the new store and the
reference to `out`. -/
noncomputable def exp_mask_zero_prog (store : List (List F)) (i : ℕ)
    (h : i < store.length) : List (List F) × ℕ :=
  let out := (store.get ⟨i, h⟩).map fexp
  let store1 := store ++ [out]
  let store2 := store1.set store.length (out.map maskZero)
  (store2, store.length)

/-! ### Normal forms for `normalize` on arrays of accepted shape -/

lemma mem_maskPairs (i j : ℕ) :
    (i, j) ∈ maskPairs ↔
      (i = 0 ∧ j = 2) ∨ (i = 1 ∧ j = 0) ∨ (i = 2 ∧ j = 0) ∨ (i = 2 ∧ j = 1) := by
  simp [maskPairs, Prod.ext_iff]

lemma setEntry_ok {m n : ℕ} (a : Mat m n) {i j : ℕ} (v : ℚ)
    (hi : i < m) (hj : j < n) :
    setEntry m n a i j v =
      Except.ok (fun i' j' => if i'.1 = i ∧ j'.1 = j then v else a i' j') := by
  simp [setEntry, hi, hj]

lemma applyMask_ok {m n : ℕ} (hm : 3 ≤ m) (hn : 3 ≤ n) (a : Mat m n) (v : ℚ) :
    applyMask m n a v = Except.ok (maskWith a v) := by
  rw [applyMask,
    setEntry_ok a v (by omega) (by omega)]
  rw [show (Except.ok (ε := Err) (fun i' j' => if i'.1 = 0 ∧ j'.1 = 2 then v else a i' j') >>= fun a =>
      setEntry m n a 1 0 v >>= fun a => setEntry m n a 2 0 v >>= fun a => setEntry m n a 2 1 v) =
      (setEntry m n (fun i' j' => if i'.1 = 0 ∧ j'.1 = 2 then v else a i' j') 1 0 v >>= fun a =>
        setEntry m n a 2 0 v >>= fun a => setEntry m n a 2 1 v) from rfl]
  rw [setEntry_ok _ v (by omega) (by omega)]
  rw [show ∀ (b : Mat m n), (Except.ok (ε := Err) b >>= fun a =>
      setEntry m n a 2 0 v >>= fun a => setEntry m n a 2 1 v) =
      (setEntry m n b 2 0 v >>= fun a => setEntry m n a 2 1 v) from fun _ => rfl]
  rw [setEntry_ok _ v (by omega) (by omega)]
  rw [show ∀ (b : Mat m n), (Except.ok (ε := Err) b >>= fun a => setEntry m n a 2 1 v) =
      setEntry m n b 2 1 v from fun _ => rfl]
  rw [setEntry_ok _ v (by omega) (by omega)]
  refine congrArg Except.ok ?_
  funext i' j'
  simp only [maskWith, mem_maskPairs]
  split_ifs <;> tauto

lemma normalize2_none_eq {m n : ℕ} (hm : 3 ≤ m) (hn : 3 ≤ n) (a : Mat m n) :
    normalize2 m n a none =
      Except.ok (maskWith
        (fun i j => preMasked a i j / totalSum (preMasked a)) epsQ) := by
  rw [normalize2, applyMask_ok hm hn]
  exact applyMask_ok hm hn _ _

lemma normalize2_axis0_eq {m n : ℕ} (hm : 3 ≤ m) (hn : 3 ≤ n) (a : Mat m n) :
    normalize2 m n a (some 0) =
      Except.ok (maskWith
        (fun i j => preMasked a i j / colSum (preMasked a) j) epsQ) := by
  rw [normalize2, applyMask_ok hm hn]
  exact applyMask_ok hm hn _ _

lemma normalize2_axis1_eq {m n : ℕ} (hm : 3 ≤ m) (hn : 3 ≤ n) (a : Mat m n) :
    normalize2 m n a (some 1) =
      Except.ok (maskWith
        (fun i j => preMasked a i j /
          (if rowSum (preMasked a) i = 0 then 1 else rowSum (preMasked a) i)) epsQ) := by
  rw [normalize2, applyMask_ok hm hn]
  exact applyMask_ok hm hn _ _

/-! ### Slice sums of the normalized array -/

lemma epsQ_pos : 0 < epsQ := by norm_num [epsQ]

lemma maskPairs_card : maskPairs.card = 4 := by decide

lemma filter_mask_row_card_le {n : ℕ} (i : ℕ) : rowMaskCount n i ≤ 4 := by
  rw [← maskPairs_card, rowMaskCount]
  apply Finset.card_le_card_of_injOn (fun j => (i, j.1))
  · intro j hj
    exact (Finset.mem_filter.mp hj).2
  · intro j _ j' _ h
    exact Fin.ext (congrArg Prod.snd h)

lemma filter_mask_col_card_le {m : ℕ} (j : ℕ) :
    (Finset.univ.filter fun i : Fin m => (i.1, j) ∈ maskPairs).card ≤ 4 := by
  rw [← maskPairs_card]
  apply Finset.card_le_card_of_injOn (fun i => (i.1, j))
  · intro i hi
    exact (Finset.mem_filter.mp hi).2
  · intro i _ i' _ h
    exact Fin.ext (congrArg Prod.fst h)

lemma filter_mask_pair_card_le {m n : ℕ} :
    ((Finset.univ ×ˢ Finset.univ).filter
      fun p : Fin m × Fin n => (p.1.1, p.2.1) ∈ maskPairs).card ≤ 4 := by
  rw [← maskPairs_card]
  apply Finset.card_le_card_of_injOn (fun p => (p.1.1, p.2.1))
  · intro p hp
    exact (Finset.mem_filter.mp hp).2
  · intro p _ p' _ h
    exact Prod.ext (Fin.ext (congrArg Prod.fst h)) (Fin.ext (congrArg Prod.snd h))

lemma rowSum_maskWith {m n : ℕ} (f : Mat m n) (v : ℚ) (i : Fin m) :
    rowSum (maskWith f v) i =
      (rowMaskCount n i.1 : ℚ) * v +
        ∑ j ∈ Finset.univ.filter (fun j : Fin n => (i.1, j.1) ∉ maskPairs), f i j := by
  simp only [rowSum, maskWith, rowMaskCount]
  simp only [Finset.sum_ite, Finset.sum_const, nsmul_eq_mul]

lemma colSum_maskWith {m n : ℕ} (f : Mat m n) (v : ℚ) (j : Fin n) :
    colSum (maskWith f v) j =
      ((Finset.univ.filter fun i : Fin m => (i.1, j.1) ∈ maskPairs).card : ℚ) * v +
        ∑ i ∈ Finset.univ.filter (fun i : Fin m => (i.1, j.1) ∉ maskPairs), f i j := by
  simp only [colSum, maskWith]
  simp only [Finset.sum_ite, Finset.sum_const, nsmul_eq_mul]

lemma totalSum_eq_sum_product {m n : ℕ} (f : Mat m n) :
    totalSum f = ∑ p ∈ Finset.univ ×ˢ Finset.univ, f p.1 p.2 := by
  rw [totalSum, Finset.sum_product']

lemma totalSum_maskWith {m n : ℕ} (f : Mat m n) (v : ℚ) :
    totalSum (maskWith f v) =
      (((Finset.univ ×ˢ Finset.univ).filter
          fun p : Fin m × Fin n => (p.1.1, p.2.1) ∈ maskPairs).card : ℚ) * v +
        ∑ p ∈ (Finset.univ ×ˢ Finset.univ).filter
          (fun p : Fin m × Fin n => (p.1.1, p.2.1) ∉ maskPairs), f p.1 p.2 := by
  rw [totalSum_eq_sum_product]
  simp only [maskWith]
  simp only [Finset.sum_ite, Finset.sum_const, nsmul_eq_mul]

/-- The cells that the structural mask forced to `0` contribute nothing to
a row sum of `preMasked a`. -/
lemma sum_unmasked_row_preMasked {m n : ℕ} (a : Mat m n) (i : Fin m) :
    ∑ j ∈ Finset.univ.filter (fun j : Fin n => (i.1, j.1) ∉ maskPairs), preMasked a i j =
      rowSum (preMasked a) i := by
  rw [rowSum,
    ← Finset.sum_filter_add_sum_filter_not Finset.univ
      (fun j : Fin n => (i.1, j.1) ∈ maskPairs) (preMasked a i)]
  have hz : ∑ j ∈ Finset.univ.filter (fun j : Fin n => (i.1, j.1) ∈ maskPairs),
      preMasked a i j = 0 := by
    apply Finset.sum_eq_zero
    intro j hj
    simp [preMasked, maskWith, (Finset.mem_filter.mp hj).2]
  rw [hz, zero_add]

lemma sum_unmasked_col_preMasked {m n : ℕ} (a : Mat m n) (j : Fin n) :
    ∑ i ∈ Finset.univ.filter (fun i : Fin m => (i.1, j.1) ∉ maskPairs), preMasked a i j =
      colSum (preMasked a) j := by
  rw [colSum,
    ← Finset.sum_filter_add_sum_filter_not Finset.univ
      (fun i : Fin m => (i.1, j.1) ∈ maskPairs) (fun i => preMasked a i j)]
  have hz : ∑ i ∈ Finset.univ.filter (fun i : Fin m => (i.1, j.1) ∈ maskPairs),
      preMasked a i j = 0 := by
    apply Finset.sum_eq_zero
    intro i hi
    simp [preMasked, maskWith, (Finset.mem_filter.mp hi).2]
  rw [hz, zero_add]

lemma sum_unmasked_pair_preMasked {m n : ℕ} (a : Mat m n) :
    ∑ p ∈ (Finset.univ ×ˢ Finset.univ).filter
        (fun p : Fin m × Fin n => (p.1.1, p.2.1) ∉ maskPairs), preMasked a p.1 p.2 =
      totalSum (preMasked a) := by
  rw [totalSum_eq_sum_product,
    ← Finset.sum_filter_add_sum_filter_not (Finset.univ ×ˢ Finset.univ)
      (fun p : Fin m × Fin n => (p.1.1, p.2.1) ∈ maskPairs)
      (fun p => preMasked a p.1 p.2)]
  have hz : ∑ p ∈ (Finset.univ ×ˢ Finset.univ).filter
      (fun p : Fin m × Fin n => (p.1.1, p.2.1) ∈ maskPairs), preMasked a p.1 p.2 = 0 := by
    apply Finset.sum_eq_zero
    intro p hp
    simp [preMasked, maskWith, (Finset.mem_filter.mp hp).2]
  rw [hz, zero_add]

/-! ### Positivity of the divisors for non-negative input -/

lemma preMasked_masked {m n : ℕ} (a : Mat m n) {i : Fin m} {j : Fin n}
    (h : (i.1, j.1) ∈ maskPairs) : preMasked a i j = 0 := by
  simp only [preMasked, maskWith]
  rw [if_pos h]

lemma preMasked_unmasked {m n : ℕ} (a : Mat m n) {i : Fin m} {j : Fin n}
    (h : (i.1, j.1) ∉ maskPairs) : preMasked a i j = a i j + epsQ := by
  simp only [preMasked, maskWith]
  rw [if_neg h]

lemma preMasked_nonneg {m n : ℕ} (a : Mat m n) (ha : ∀ i j, 0 ≤ a i j)
    (i : Fin m) (j : Fin n) : 0 ≤ preMasked a i j := by
  by_cases h : (i.1, j.1) ∈ maskPairs
  · rw [preMasked_masked a h]
  · rw [preMasked_unmasked a h]
    have := ha i j
    have := epsQ_pos
    linarith

/-- Each row of the conceptual transition matrix keeps at least one
unmasked cell (row 0: column 0; row 1: column 1; row 2: column 2; rows
beyond 2 are fully unmasked). -/
lemma exists_unmasked_in_row {m n : ℕ} (hn : 3 ≤ n) (i : Fin m) :
    ∃ j : Fin n, (i.1, j.1) ∉ maskPairs := by
  by_cases h0 : i.1 = 0
  · refine ⟨⟨0, by omega⟩, ?_⟩
    show (i.1, 0) ∉ maskPairs
    simp only [mem_maskPairs]; omega
  by_cases h1 : i.1 = 1
  · refine ⟨⟨1, by omega⟩, ?_⟩
    show (i.1, 1) ∉ maskPairs
    simp only [mem_maskPairs]; omega
  by_cases h2 : i.1 = 2
  · refine ⟨⟨2, by omega⟩, ?_⟩
    show (i.1, 2) ∉ maskPairs
    simp only [mem_maskPairs]; omega
  · refine ⟨⟨0, by omega⟩, ?_⟩
    show (i.1, 0) ∉ maskPairs
    simp only [mem_maskPairs]; omega

lemma exists_unmasked_in_col {m n : ℕ} (hm : 3 ≤ m) (j : Fin n) :
    ∃ i : Fin m, (i.1, j.1) ∉ maskPairs := by
  by_cases h2 : j.1 = 2
  · refine ⟨⟨1, by omega⟩, ?_⟩
    show (1, j.1) ∉ maskPairs
    simp only [mem_maskPairs]; omega
  · refine ⟨⟨0, by omega⟩, ?_⟩
    show (0, j.1) ∉ maskPairs
    simp only [mem_maskPairs]; omega

lemma rowSum_preMasked_pos {m n : ℕ} (a : Mat m n) (hn : 3 ≤ n)
    (ha : ∀ i j, 0 ≤ a i j) (i : Fin m) : 0 < rowSum (preMasked a) i := by
  obtain ⟨j0, hj0⟩ := exists_unmasked_in_row hn i
  refine Finset.sum_pos' (fun j _ => preMasked_nonneg a ha i j) ⟨j0, Finset.mem_univ _, ?_⟩
  rw [preMasked_unmasked a hj0]
  have := ha i j0
  have := epsQ_pos
  linarith

lemma colSum_preMasked_pos {m n : ℕ} (a : Mat m n) (hm : 3 ≤ m)
    (ha : ∀ i j, 0 ≤ a i j) (j : Fin n) : 0 < colSum (preMasked a) j := by
  obtain ⟨i0, hi0⟩ := exists_unmasked_in_col hm j
  refine Finset.sum_pos' (fun i _ => preMasked_nonneg a ha i j) ⟨i0, Finset.mem_univ _, ?_⟩
  rw [preMasked_unmasked a hi0]
  have := ha i0 j
  have := epsQ_pos
  linarith

lemma totalSum_preMasked_pos {m n : ℕ} (a : Mat m n) (hm : 3 ≤ m) (hn : 3 ≤ n)
    (ha : ∀ i j, 0 ≤ a i j) : 0 < totalSum (preMasked a) := by
  rw [totalSum]
  refine Finset.sum_pos' (fun i _ => Finset.sum_nonneg fun j _ => preMasked_nonneg a ha i j)
    ⟨⟨0, by omega⟩, Finset.mem_univ _, rowSum_preMasked_pos a hn ha _⟩

lemma rowSum_result_axis1 {m n : ℕ} (a : Mat m n) (hn : 3 ≤ n)
    (ha : ∀ i j, 0 ≤ a i j) (i : Fin m) :
    rowSum (maskWith
        (fun i j => preMasked a i j /
          (if rowSum (preMasked a) i = 0 then 1 else rowSum (preMasked a) i)) epsQ) i =
      1 + (rowMaskCount n i.1 : ℚ) * epsQ := by
  have hpos := rowSum_preMasked_pos a hn ha i
  rw [rowSum_maskWith]
  rw [if_neg hpos.ne']
  rw [← Finset.sum_div, sum_unmasked_row_preMasked, div_self hpos.ne']
  ring

lemma colSum_result_axis0 {m n : ℕ} (a : Mat m n) (hm : 3 ≤ m)
    (ha : ∀ i j, 0 ≤ a i j) (j : Fin n) :
    colSum (maskWith (fun i j => preMasked a i j / colSum (preMasked a) j) epsQ) j =
      1 + ((Finset.univ.filter fun i : Fin m => (i.1, j.1) ∈ maskPairs).card : ℚ) * epsQ := by
  have hpos := colSum_preMasked_pos a hm ha j
  rw [colSum_maskWith]
  rw [← Finset.sum_div, sum_unmasked_col_preMasked, div_self hpos.ne']
  ring

lemma totalSum_result_none {m n : ℕ} (a : Mat m n) (hm : 3 ≤ m) (hn : 3 ≤ n)
    (ha : ∀ i j, 0 ≤ a i j) :
    totalSum (maskWith (fun i j => preMasked a i j / totalSum (preMasked a)) epsQ) =
      1 + (((Finset.univ ×ˢ Finset.univ).filter
          fun p : Fin m × Fin n => (p.1.1, p.2.1) ∈ maskPairs).card : ℚ) * epsQ := by
  have hpos := totalSum_preMasked_pos a hm hn ha
  rw [totalSum_maskWith]
  rw [← Finset.sum_div, sum_unmasked_pair_preMasked, div_self hpos.ne']
  ring

lemma maskWith_masked {m n : ℕ} (f : Mat m n) (v : ℚ) {i : Fin m} {j : Fin n}
    (h : (i.1, j.1) ∈ maskPairs) : maskWith f v i j = v := by
  simp only [maskWith]
  rw [if_pos h]

lemma maskWith_unmasked {m n : ℕ} (f : Mat m n) (v : ℚ) {i : Fin m} {j : Fin n}
    (h : (i.1, j.1) ∉ maskPairs) : maskWith f v i j = f i j := by
  simp only [maskWith]
  rw [if_neg h]

lemma applyMask_err {m n : ℕ} (h : m < 3 ∨ n < 3) (a : Mat m n) (v : ℚ) :
    applyMask m n a v = Except.error Err.indexError := by
  simp only [applyMask, setEntry]
  split_ifs <;> first | rfl | omega

lemma normalize2_err {m n : ℕ} (h : m < 3 ∨ n < 3) (a : Mat m n) (axis : Option ℕ) :
    normalize2 m n a axis = Except.error Err.indexError := by
  simp only [normalize2]
  rw [applyMask_err h]
  rfl

/-- `normalize` on a 1-D array always raises at `a[0][2] = 0.0`:
`TypeError` when `a[0]` exists (it is an immutable numpy scalar),
`IndexError` when the array is empty. -/
lemma normalize1_eq (k : ℕ) (a : Fin k → ℚ) (axis : Option ℕ) :
    normalize1 k a axis =
      Except.error (if 0 < k then Err.typeError else Err.indexError) := by
  by_cases h : 0 < k
  · rw [if_pos h]
    simp only [normalize1, getItem1]
    rw [dif_pos h]
    rfl
  · rw [if_neg h]
    simp only [normalize1, getItem1]
    rw [dif_neg h]
    rfl

/-! ### Claim theorems -/

/-- Claim C1: for every non-negative array of a shape `normalize` accepts
(at least 3×3, modelled at rank 2) and every valid axis
(`None`, `0` or `1`), after `normalize(a, axis)` every 1-D slice along
that axis — the whole array when the axis is unspecified — sums to 1
within floating-point tolerance: the deviation is at most `4 ·eps`,
which is below the spec's `1e-10` tolerance.  (The deviation is exactly
`eps` per structurally masked cell of the slice, from the final
re-masking with machine epsilon.) -/
theorem c1_normalize_slices_sum_to_one {m n : ℕ} (a : Mat m n)
    (hm : 3 ≤ m) (hn : 3 ≤ n) (ha : ∀ i j, 0 ≤ a i j) :
    (∃ b, normalize2 m n a none = Except.ok b ∧ |totalSum b - 1| ≤ 4 * epsQ) ∧
    (∃ b, normalize2 m n a (some 0) = Except.ok b ∧ ∀ j, |colSum b j - 1| ≤ 4 * epsQ) ∧
    (∃ b, normalize2 m n a (some 1) = Except.ok b ∧ ∀ i, |rowSum b i - 1| ≤ 4 * epsQ) ∧
    4 * epsQ < 1 / 10 ^ 10 := by
  have heps := epsQ_pos
  refine ⟨⟨_, normalize2_none_eq hm hn a, ?_⟩,
    ⟨_, normalize2_axis0_eq hm hn a, fun j => ?_⟩,
    ⟨_, normalize2_axis1_eq hm hn a, fun i => ?_⟩, by norm_num [epsQ]⟩
  · rw [totalSum_result_none a hm hn ha]
    rw [add_sub_cancel_left, abs_of_nonneg (by positivity)]
    have hc := filter_mask_pair_card_le (m := m) (n := n)
    have : (((Finset.univ ×ˢ Finset.univ).filter
        fun p : Fin m × Fin n => (p.1.1, p.2.1) ∈ maskPairs).card : ℚ) ≤ 4 := by
      exact_mod_cast hc
    nlinarith
  · rw [colSum_result_axis0 a hm ha j]
    rw [add_sub_cancel_left, abs_of_nonneg (by positivity)]
    have hc := filter_mask_col_card_le (m := m) j.1
    have : ((Finset.univ.filter fun i : Fin m => (i.1, j.1) ∈ maskPairs).card : ℚ) ≤ 4 := by
      exact_mod_cast hc
    nlinarith
  · rw [rowSum_result_axis1 a hn ha i]
    rw [add_sub_cancel_left, abs_of_nonneg (by positivity)]
    have hc := filter_mask_row_card_le (n := n) i.1
    have : ((rowMaskCount n i.1 : ℕ) : ℚ) ≤ 4 := by exact_mod_cast hc
    nlinarith

/-- Witness for C1 at the all-ones 3×3 array. -/
theorem c1_witness :
    (∃ b, normalize2 3 3 (fun _ _ => 1) none = Except.ok b ∧ |totalSum b - 1| ≤ 4 * epsQ) ∧
    (∃ b, normalize2 3 3 (fun _ _ => 1) (some 0) = Except.ok b ∧
      ∀ j, |colSum b j - 1| ≤ 4 * epsQ) ∧
    (∃ b, normalize2 3 3 (fun _ _ => 1) (some 1) = Except.ok b ∧
      ∀ i, |rowSum b i - 1| ≤ 4 * epsQ) ∧
    4 * epsQ < 1 / 10 ^ 10 :=
  c1_normalize_slices_sum_to_one (fun _ _ => 1) (by norm_num) (by norm_num)
    (fun _ _ => by norm_num)

/-- Claim C3 counterexample: `normalize` forces FOUR cells, not three.  On
the all-ones 3×3 array (no axis) the result holds machine epsilon in
exactly four cells — `(0,2)`, `(1,0)`, `(2,0)` and `(2,1)` — while every
other cell is `1/5`, so no set of "exactly three specific cells" describes
the structural mask. -/
theorem c3_counterexample :
    (normalize2 3 3 (fun _ _ => 1) none).map
      (fun b => (Finset.univ.filter fun p : Fin 3 × Fin 3 => b p.1 p.2 = epsQ).card) =
    Except.ok 4 := by
  have hT : totalSum (preMasked ((fun _ _ => 1) : Mat 3 3)) = 5 * (1 + epsQ) := by
    rw [show preMasked ((fun _ _ => 1) : Mat 3 3) =
        maskWith (fun _ _ => 1 + epsQ) 0 from rfl]
    rw [totalSum_maskWith]
    have hcard : ((Finset.univ ×ˢ Finset.univ).filter
        (fun p : Fin 3 × Fin 3 => (p.1.1, p.2.1) ∉ maskPairs)).card = 5 := by decide
    rw [Finset.sum_const, hcard]
    simp [nsmul_eq_mul]
    ring
  rw [normalize2_none_eq (by norm_num) (by norm_num)]
  simp only [Except.map]
  congr 1
  have hiff : ∀ p : Fin 3 × Fin 3,
      (maskWith (fun i j => preMasked ((fun _ _ => 1) : Mat 3 3) i j /
        totalSum (preMasked ((fun _ _ => 1) : Mat 3 3))) epsQ p.1 p.2 = epsQ) ↔
      (p.1.1, p.2.1) ∈ maskPairs := by
    intro p
    by_cases hp : (p.1.1, p.2.1) ∈ maskPairs
    · simp only [hp, iff_true]
      exact maskWith_masked _ _ hp
    · simp only [hp, iff_false]
      rw [maskWith_unmasked _ _ hp, preMasked_unmasked _ hp, hT]
      intro hcontra
      rw [div_eq_iff (by norm_num [epsQ] : (5 : ℚ) * (1 + epsQ) ≠ 0)] at hcontra
      norm_num [epsQ] at hcontra
  rw [Finset.filter_congr (fun p _ => hiff p)]
  decide

/-- Claim C3 (amended): the structural mask of `normalize` touches exactly
FOUR cells — `(0,2)`, `(1,0)`, `(2,0)`, `(2,1)` — not three.  Before the
sum they are forced to exactly `0` (every other cell only gains the
epsilon), and after the division the same four cells are set to machine
epsilon in the returned array. -/
theorem c3_mask_forces_four_cells {m n : ℕ} (a : Mat m n) (axis : Option ℕ)
    (hm : 3 ≤ m) (hn : 3 ≤ n)
    (hax : axis = none ∨ axis = some 0 ∨ axis = some 1) :
    maskPairs = {(0, 2), (1, 0), (2, 0), (2, 1)} ∧
    maskPairs.card = 4 ∧
    (∀ (i : Fin m) (j : Fin n), (i.1, j.1) ∈ maskPairs → preMasked a i j = 0) ∧
    (∀ (i : Fin m) (j : Fin n), (i.1, j.1) ∉ maskPairs → preMasked a i j = a i j + epsQ) ∧
    ∃ b, normalize2 m n a axis = Except.ok b ∧
      ∀ (i : Fin m) (j : Fin n), (i.1, j.1) ∈ maskPairs → b i j = epsQ := by
  refine ⟨rfl, maskPairs_card, fun i j h => preMasked_masked a h,
    fun i j h => preMasked_unmasked a h, ?_⟩
  rcases hax with h | h | h <;> subst h
  · exact ⟨_, normalize2_none_eq hm hn a, fun i j h => maskWith_masked _ _ h⟩
  · exact ⟨_, normalize2_axis0_eq hm hn a, fun i j h => maskWith_masked _ _ h⟩
  · exact ⟨_, normalize2_axis1_eq hm hn a, fun i j h => maskWith_masked _ _ h⟩

/-- Witness for the amended C3 at the all-ones 3×3 array, axis unspecified. -/
theorem c3_witness :
    maskPairs = {(0, 2), (1, 0), (2, 0), (2, 1)} ∧
    maskPairs.card = 4 ∧
    (∀ (i j : Fin 3), (i.1, j.1) ∈ maskPairs →
      preMasked ((fun _ _ => 1) : Mat 3 3) i j = 0) ∧
    (∀ (i j : Fin 3), (i.1, j.1) ∉ maskPairs →
      preMasked ((fun _ _ => 1) : Mat 3 3) i j = (1 : ℚ) + epsQ) ∧
    ∃ b, normalize2 3 3 (fun _ _ => 1) none = Except.ok b ∧
      ∀ (i j : Fin 3), (i.1, j.1) ∈ maskPairs → b i j = epsQ :=
  c3_mask_forces_four_cells (fun _ _ => 1) none (by norm_num) (by norm_num) (Or.inl rfl)

/-- Claim C4 counterexample: on the all-zero 3×3 array with `axis=1`, row 0
sums to zero, yet `normalize` does NOT leave that slice unchanged in
relative proportion: the row `[0, 0, 0]` becomes `[1/2, 1/2, eps]`, which
is not `c·[0, 0, 0]` for any scalar `c` (its first entry is `1/2 ≠ 0`).
The zero-divisor-to-1 replacement never fires: after `a += eps` the row
sum is `2·eps`, not `0`. -/
theorem c4_counterexample :
    rowSum ((fun _ _ => 0) : Mat 3 3) 0 = 0 ∧
    rowSum (preMasked ((fun _ _ => 0) : Mat 3 3)) 0 = 2 * epsQ ∧
    (normalize2 3 3 (fun _ _ => 0) (some 1)).map (fun b => (b 0 0, b 0 1, b 0 2)) =
      Except.ok (1 / 2, 1 / 2, epsQ) ∧
    (1 / 2 : ℚ) ≠ 0 := by
  have hr0 : rowSum (preMasked ((fun _ _ => 0) : Mat 3 3)) 0 = 2 * epsQ := by
    rw [rowSum, Fin.sum_univ_three,
      preMasked_unmasked (i := 0) (j := 0) _ (by decide),
      preMasked_unmasked (i := 0) (j := 1) _ (by decide),
      preMasked_masked (i := 0) (j := 2) _ (by decide)]
    ring
  refine ⟨by simp [rowSum], hr0, ?_, by norm_num⟩
  rw [normalize2_axis1_eq (by norm_num) (by norm_num)]
  simp only [Except.map]
  congr 1
  rw [maskWith_unmasked (i := 0) (j := 0) _ _ (by decide),
    maskWith_unmasked (i := 0) (j := 1) _ _ (by decide),
    maskWith_masked (i := 0) (j := 2) _ _ (by decide),
    preMasked_unmasked (i := 0) (j := 0) _ (by decide),
    preMasked_unmasked (i := 0) (j := 1) _ (by decide),
    hr0, if_neg (by norm_num [epsQ] : ¬(2 * epsQ = (0 : ℚ)))]
  have : ((0 : ℚ) + epsQ) / (2 * epsQ) = 1 / 2 := by
    rw [zero_add]
    rw [div_eq_div_iff (by norm_num [epsQ]) (by norm_num)]
    ring
  rw [this]

/-- Claim C4 (amended): `normalize(a, axis=1)` on a non-negative array with
a zero-sum row does not raise, but the row is NOT left unchanged: since
machine epsilon is added to every element first, the divisor for that row
is `(number of unmasked cells)·eps` — never zero, so the zero-divisor
replacement `a_sum[a_sum == 0] = 1` does not fire — and the all-zero row
is normalized to the uniform value `1/(number of unmasked cells)` on its
unmasked cells, with `eps` in the masked cells. -/
theorem c4_zero_sum_row_renormalized {m n : ℕ} (a : Mat m n)
    (hm : 3 ≤ m) (hn : 3 ≤ n) (ha : ∀ i j, 0 ≤ a i j) (i : Fin m)
    (hz : rowSum a i = 0) :
    ∃ b, normalize2 m n a (some 1) = Except.ok b ∧
      (∀ j : Fin n, (i.1, j.1) ∉ maskPairs → b i j = 1 / (rowFreeCount n i.1 : ℚ)) ∧
      (∀ j : Fin n, (i.1, j.1) ∈ maskPairs → b i j = epsQ) := by
  have haz : ∀ j, a i j = 0 := by
    intro j
    exact (Finset.sum_eq_zero_iff_of_nonneg (fun j _ => ha i j)).mp hz j (Finset.mem_univ j)
  have hfree_pos : 0 < rowFreeCount n i.1 := by
    obtain ⟨j0, hj0⟩ := exists_unmasked_in_row hn i
    exact Finset.card_pos.mpr ⟨j0, Finset.mem_filter.mpr ⟨Finset.mem_univ _, hj0⟩⟩
  have hfreeQ : (0 : ℚ) < (rowFreeCount n i.1 : ℚ) := by exact_mod_cast hfree_pos
  have hrs : rowSum (preMasked a) i = (rowFreeCount n i.1 : ℚ) * epsQ := by
    rw [show preMasked a = maskWith (fun i j => a i j + epsQ) 0 from rfl, rowSum_maskWith]
    rw [Finset.sum_congr rfl (fun j _ => show a i j + epsQ = epsQ by rw [haz j]; ring)]
    rw [Finset.sum_const, rowFreeCount]
    simp [nsmul_eq_mul]
  have hne : rowSum (preMasked a) i ≠ 0 := by
    rw [hrs]
    have := epsQ_pos
    positivity
  refine ⟨_, normalize2_axis1_eq hm hn a, fun j hj => ?_, fun j hj => maskWith_masked _ _ hj⟩
  rw [maskWith_unmasked _ _ hj, preMasked_unmasked a hj, haz j, hrs, if_neg (hrs ▸ hne)]
  rw [zero_add]
  rw [div_eq_div_iff (by have := epsQ_pos; positivity) hfreeQ.ne']
  ring

/-- Witness for the amended C4 at the all-zero 3×3 array, row 0. -/
theorem c4_witness :
    ∃ b, normalize2 3 3 (fun _ _ => 0) (some 1) = Except.ok b ∧
      (∀ j : Fin 3, ((0 : Fin 3).1, j.1) ∉ maskPairs →
        b 0 j = 1 / (rowFreeCount 3 (0 : Fin 3).1 : ℚ)) ∧
      (∀ j : Fin 3, ((0 : Fin 3).1, j.1) ∈ maskPairs → b 0 j = epsQ) :=
  c4_zero_sum_row_renormalized (fun _ _ => 0) (by norm_num) (by norm_num)
    (fun _ _ => le_refl 0) 0 (by simp [rowSum])

/-- Claim C5 counterexample: on a 1-D array neither `normalize(a, axis=0)`
nor `normalize(a)` "reduces over the single dimension and produces a
result" — both raise `TypeError` at the structural assignment
`a[0][2] = 0.0` (`a[0]` is an immutable numpy scalar) before any
normalization. -/
theorem c5_counterexample :
    normalize1 3 (fun _ => 1) (some 0) = Except.error Err.typeError ∧
    normalize1 3 (fun _ => 1) none = Except.error Err.typeError := by
  constructor <;> rw [normalize1_eq] <;> rfl

/-- Claim C5 (amended): on every 1-D array, `normalize(a, axis=0)` and
`normalize(a)` do behave identically — the axis is never consulted — but
only in that both raise the same exception before any normalization:
`TypeError` on a nonempty array (the subscript `a[0]` yields an immutable
`numpy.float64` scalar, so the item assignment `a[0][2] = 0.0` is
invalid) and `IndexError` on an empty one.  Neither call reduces over the
dimension or produces a result. -/
theorem c5_1d_axis0_same_as_none (k : ℕ) (a : Fin k → ℚ) (axis axis' : Option ℕ) :
    normalize1 k a axis = normalize1 k a axis' ∧
    normalize1 k a axis =
      Except.error (if 0 < k then Err.typeError else Err.indexError) :=
  ⟨rfl, normalize1_eq k a axis⟩

/-- Claim C10 counterexample: a nonempty 1-D array does make `normalize`
fail before any normalization, but with `TypeError` — the subscript
`a[0]` yields an immutable `numpy.float64` scalar, so the item assignment
`a[0][2] = 0.0` is invalid — not with the indexing error the claim
asserts. -/
theorem c10_counterexample :
    normalize1 3 (fun _ => 1) none = Except.error Err.typeError ∧
    Err.typeError ≠ Err.indexError := by
  refine ⟨?_, by decide⟩
  rw [normalize1_eq]
  rfl

/-- Claim C10 (amended): `normalize` unconditionally runs the structural
assignments `a[0][2]`, `a[1][0]`, `a[2][0]`, `a[2][1]`, so every call on
an array of insufficient shape fails before any normalization: a 2-D
array whose dimensions are not both at least 3 raises `IndexError` at the
first out-of-range structural assignment, and every 1-D array fails at
`a[0][2] = 0.0` — with `TypeError` when nonempty (item assignment on the
numpy scalar `a[0]`) and `IndexError` only when empty. -/
theorem c10_small_shape_fails :
    (∀ (m n : ℕ) (a : Mat m n) (axis : Option ℕ), m < 3 ∨ n < 3 →
      normalize2 m n a axis = Except.error Err.indexError) ∧
    (∀ (k : ℕ) (a : Fin k → ℚ) (axis : Option ℕ),
      normalize1 k a axis =
        Except.error (if 0 < k then Err.typeError else Err.indexError)) :=
  ⟨fun _ _ a axis h => normalize2_err h a axis,
   fun k a axis => normalize1_eq k a axis⟩

/-- Witness for the amended C10: a 2×2 array and a 1-D array of
length 2. -/
theorem c10_witness :
    normalize2 2 2 (fun _ _ => 1) none = Except.error Err.indexError ∧
    normalize1 2 (fun _ => 1) none =
      Except.error (if 0 < 2 then Err.typeError else Err.indexError) :=
  ⟨c10_small_shape_fails.1 2 2 (fun _ _ => 1) none (by norm_num),
   c10_small_shape_fails.2 2 (fun _ => 1) none⟩

/-! ### Elementwise facts about the masked exponential and logarithm -/

lemma epsR_pos : 0 < epsR := by norm_num [epsR]

lemma maskNaN_ne_nan (y : F) : maskNaN y ≠ F.nan := by
  cases y <;> simp [maskNaN]

lemma maskZero_ne_zero (y : F) : maskZero y ≠ F.finite 0 := by
  by_cases h : y = F.finite 0
  · rw [maskZero, if_pos h]
    simp only [ne_eq, F.finite.injEq]
    exact epsR_pos.ne'
  · rw [maskZero, if_neg h]
    exact h

lemma maskZero_zero : maskZero (F.finite 0) = F.finite epsR := by
  rw [maskZero, if_pos rfl]

lemma maskZero_nan : maskZero F.nan = F.nan := by
  rw [maskZero, if_neg (by simp)]

lemma log_mask_zero_get (a : List F) (i : ℕ) (h : i < a.length)
    (h' : i < (log_mask_zero a).length) :
    (log_mask_zero a).get ⟨i, h'⟩ = maskNaN (flog (a.get ⟨i, h⟩)) := by
  simp [log_mask_zero, List.get_eq_getElem, List.getElem_map]

lemma exp_mask_zero_get (a : List F) (i : ℕ) (h : i < a.length)
    (h' : i < (exp_mask_zero a).length) :
    (exp_mask_zero a).get ⟨i, h'⟩ = maskZero (fexp (a.get ⟨i, h⟩)) := by
  simp [exp_mask_zero, List.get_eq_getElem, List.getElem_map]

lemma flog_zero : flog (F.finite 0) = F.negInf := by
  rw [flog, if_neg (lt_irrefl 0), if_pos rfl]

lemma flog_neg {x : ℝ} (hx : x < 0) : flog (F.finite x) = F.nan := by
  rw [flog, if_pos hx]

lemma flog_pos {x : ℝ} (hx : 0 < x) : flog (F.finite x) = F.finite (Real.log x) := by
  rw [flog, if_neg (not_lt.mpr hx.le), if_neg hx.ne']

/-- Claim C2 counterexample: `log_mask_zero([0.0])` is `[-inf]`, not
`[0.0]` — the `-inf` produced by the logarithm of zero is NOT replaced,
because the code masks with `np.isnan` and `isnan(-inf)` is false. -/
theorem c2_counterexample :
    log_mask_zero [F.finite 0] = [F.negInf] ∧ F.negInf ≠ F.finite 0 := by
  constructor
  · show [maskNaN (flog (F.finite 0))] = [F.negInf]
    rw [flog_zero]
    rfl
  · simp

/-- Claim C2 (amended): `log_mask_zero(a)` contains no NaN element, and
every element where the logarithm produces NaN (negative input, NaN
input, `-inf` input) is `0.0` in the output; but the `-inf` arising from
the logarithm of a zero input is NOT replaced — it stays `-inf`. -/
theorem c2_log_mask_zero_no_nan (a : List F) (i : ℕ) (h : i < a.length)
    (h' : i < (log_mask_zero a).length) :
    (∀ y ∈ log_mask_zero a, y ≠ F.nan) ∧
    (∀ x : ℝ, a.get ⟨i, h⟩ = F.finite x → x < 0 →
      (log_mask_zero a).get ⟨i, h'⟩ = F.finite 0) ∧
    (a.get ⟨i, h⟩ = F.finite 0 → (log_mask_zero a).get ⟨i, h'⟩ = F.negInf) := by
  refine ⟨?_, ?_, ?_⟩
  · intro y hy
    rw [log_mask_zero] at hy
    obtain ⟨z, _, rfl⟩ := List.mem_map.mp hy
    exact maskNaN_ne_nan z
  · intro x hx hneg
    rw [log_mask_zero_get a i h h', hx, flog_neg hneg]
    rfl
  · intro hx
    rw [log_mask_zero_get a i h h', hx, flog_zero]
    rfl

/-- Witness for the amended C2 at the array `[-1.0, 0.0]`. -/
theorem c2_witness :
    (∀ y ∈ log_mask_zero [F.finite (-1), F.finite 0], y ≠ F.nan) ∧
    (∀ x : ℝ, [F.finite (-1), F.finite 0].get ⟨0, by simp⟩ = F.finite x → x < 0 →
      (log_mask_zero [F.finite (-1), F.finite 0]).get
        ⟨0, by simp [log_mask_zero]⟩ = F.finite 0) ∧
    ([F.finite (-1), F.finite 0].get ⟨0, by simp⟩ = F.finite 0 →
      (log_mask_zero [F.finite (-1), F.finite 0]).get
        ⟨0, by simp [log_mask_zero]⟩ = F.negInf) :=
  c2_log_mask_zero_no_nan [F.finite (-1), F.finite 0] 0 (by simp) (by simp [log_mask_zero])

/-- Claim C6: `exp_mask_zero(a)` contains no element exactly equal to
`0.0`: the masking assignment replaces every exact zero of the computed
exponential (underflow of `np.exp`, or `exp(-inf)`) with machine
epsilon. -/
theorem c6_exp_mask_zero_no_zero (a : List F) (i : ℕ) (h : i < a.length)
    (h' : i < (exp_mask_zero a).length) :
    (∀ y ∈ exp_mask_zero a, y ≠ F.finite 0) ∧
    (fexp (a.get ⟨i, h⟩) = F.finite 0 →
      (exp_mask_zero a).get ⟨i, h'⟩ = F.finite epsR) := by
  refine ⟨?_, ?_⟩
  · intro y hy
    rw [exp_mask_zero] at hy
    obtain ⟨z, _, rfl⟩ := List.mem_map.mp hy
    exact maskZero_ne_zero z
  · intro hz
    rw [exp_mask_zero_get a i h h', hz, maskZero_zero]

/-- Witness for C6 at the array `[-inf]`, whose exponential is the exact
float `0.0`. -/
theorem c6_witness :
    (∀ y ∈ exp_mask_zero [F.negInf], y ≠ F.finite 0) ∧
    (fexp ([F.negInf].get ⟨0, by simp⟩) = F.finite 0 →
      (exp_mask_zero [F.negInf]).get ⟨0, by simp [exp_mask_zero]⟩ = F.finite epsR) :=
  c6_exp_mask_zero_no_zero [F.negInf] 0 (by simp) (by simp [exp_mask_zero])

/-! ### Frame property of `exp_mask_zero` -/

lemma set_append_singleton {α : Type} (l : List α) (a b : α) :
    (l ++ [a]).set l.length b = l ++ [b] := by
  induction l with
  | nil => rfl
  | cons x t ih =>
      show x :: ((t ++ [a]).set t.length b) = x :: (t ++ [b])
      rw [ih]

/-- Claim C9: `exp_mask_zero` does not mutate its input and returns a
fresh array.  In the store model: the new store is the old store with one
fresh array appended; every pre-existing array — in particular the input
at index `i` — is unchanged; the returned reference is the fresh index
`store.length` (distinct from every existing index), and the fresh array
holds `exp_mask_zero` of the input. -/
theorem c9_exp_mask_zero_pure (store : List (List F)) (i : ℕ) (h : i < store.length) :
    (exp_mask_zero_prog store i h).1 = store ++ [exp_mask_zero (store.get ⟨i, h⟩)] ∧
    (∀ (j : ℕ) (hj : j < store.length) (hj' : j < (exp_mask_zero_prog store i h).1.length),
      (exp_mask_zero_prog store i h).1.get ⟨j, hj'⟩ = store.get ⟨j, hj⟩) ∧
    (exp_mask_zero_prog store i h).2 = store.length := by
  have h1 : (exp_mask_zero_prog store i h).1 =
      store ++ [exp_mask_zero (store.get ⟨i, h⟩)] := by
    show (store ++ [(store.get ⟨i, h⟩).map fexp]).set store.length
        (((store.get ⟨i, h⟩).map fexp).map maskZero) = _
    rw [set_append_singleton]
    rfl
  refine ⟨h1, ?_, rfl⟩
  intro j hj hj'
  rw [List.get_of_eq h1 ⟨j, hj'⟩]
  simp [List.get_eq_getElem, List.getElem_append_left hj]

/-- Witness for C9: a store holding the single array `[+inf]`. -/
theorem c9_witness :
    (exp_mask_zero_prog [[F.posInf]] 0 (by simp)).1 =
      [[F.posInf]] ++ [exp_mask_zero ([[F.posInf]].get ⟨0, by simp⟩)] ∧
    (∀ (j : ℕ) (hj : j < [[F.posInf]].length)
      (hj' : j < (exp_mask_zero_prog [[F.posInf]] 0 (by simp)).1.length),
      (exp_mask_zero_prog [[F.posInf]] 0 (by simp)).1.get ⟨j, hj'⟩ =
        [[F.posInf]].get ⟨j, hj⟩) ∧
    (exp_mask_zero_prog [[F.posInf]] 0 (by simp)).2 = [[F.posInf]].length :=
  c9_exp_mask_zero_pure [[F.posInf]] 0 (by simp)

/-! ### Shift invariance of `logsumexp` -/

lemma fmax_fsub_const (x y : F) (c : ℝ) :
    fmax (fsub x (F.finite c)) (fsub y (F.finite c)) = fsub (fmax x y) (F.finite c) := by
  cases x <;> cases y <;>
    simp [fmax, fsub, fneg, fadd, ← sub_eq_add_neg, max_sub_sub_right]

lemma fsub_fsub_cancel (x w : F) (c : ℝ) :
    fsub (fsub x (F.finite c)) (fsub w (F.finite c)) = fsub x w := by
  cases x <;> cases w <;> (simp [fsub, fneg, fadd]; try ring)

lemma fadd_assoc_shift (l w : F) (c : ℝ) :
    fadd (fadd l (fsub w (F.finite c))) (F.finite c) = fadd l w := by
  cases l <;> cases w <;> (simp [fsub, fneg, fadd]; try ring)

lemma foldl_fmax_map_fsub (t : List F) (h : F) (c : ℝ) :
    (t.map fun x => fsub x (F.finite c)).foldl fmax (fsub h (F.finite c)) =
      fsub (t.foldl fmax h) (F.finite c) := by
  induction t generalizing h with
  | nil => rfl
  | cons y t ih =>
      rw [List.map_cons, List.foldl_cons, List.foldl_cons, fmax_fsub_const, ih]

lemma logsumexp_cons (h : F) (t : List F) :
    logsumexp (h :: t) = Except.ok
      (fadd (flog (listSum (exp_mask_zero
        ((h :: t).map fun x => fsub x (t.foldl fmax h))))) (t.foldl fmax h)) := rfl

/-- Claim C8: `logsumexp` is shift invariant — for every array `a` and
every (finite) scalar constant `c`, `logsumexp(a) == logsumexp(a - c) + c`
(errors propagate identically: on the empty array both sides raise). -/
theorem c8_logsumexp_shift_invariant (a : List F) (c : ℝ) :
    logsumexp a =
      (logsumexp (a.map fun x => fsub x (F.finite c))).map
        (fun r => fadd r (F.finite c)) := by
  cases a with
  | nil => rfl
  | cons h t =>
    rw [List.map_cons, logsumexp_cons, logsumexp_cons, foldl_fmax_map_fsub]
    show _ = Except.ok (fadd (fadd (flog (listSum (exp_mask_zero
      ((fsub h (F.finite c) :: t.map fun x => fsub x (F.finite c)).map fun x =>
        fsub x (fsub (t.foldl fmax h) (F.finite c)))))) (fsub (t.foldl fmax h) (F.finite c)))
      (F.finite c))
    have hlist : ((fsub h (F.finite c) :: t.map fun x => fsub x (F.finite c)).map fun x =>
        fsub x (fsub (t.foldl fmax h) (F.finite c))) =
        ((h :: t).map fun x => fsub x (t.foldl fmax h)) := by
      rw [List.map_cons, List.map_cons]
      congr 1
      · exact fsub_fsub_cancel h (t.foldl fmax h) c
      · rw [List.map_map]
        exact List.map_congr_left fun x _ => fsub_fsub_cancel x (t.foldl fmax h) c
    rw [hlist, fadd_assoc_shift]

/-! ### `logsumexp` against the mathematical log-sum-exp -/

lemma minPos_le_epsR : minPos ≤ epsR := by
  rw [minPos, epsR]
  norm_num

lemma fmax_ofOpt (x y : Option ℝ) : fmax (ofOpt x) (ofOpt y) = ofOpt (omax x y) := by
  cases x <;> cases y <;> rfl

lemma foldl_fmax_map_ofOpt (t : List (Option ℝ)) (acc : Option ℝ) :
    (t.map ofOpt).foldl fmax (ofOpt acc) = ofOpt (t.foldl omax acc) := by
  induction t generalizing acc with
  | nil => rfl
  | cons o t ih =>
      rw [List.map_cons, List.foldl_cons, List.foldl_cons, fmax_ofOpt, ih]

lemma omax_choice (x y : Option ℝ) : omax x y = x ∨ omax x y = y := by
  cases x with
  | none =>
      cases y with
      | none => exact Or.inl rfl
      | some b => exact Or.inr rfl
  | some a =>
      cases y with
      | none => exact Or.inl rfl
      | some b =>
          rcases max_choice a b with h | h
          · exact Or.inl (congrArg some h)
          · exact Or.inr (congrArg some h)

lemma foldl_omax_init_le (t : List (Option ℝ)) (v : ℝ) :
    ∃ M, t.foldl omax (some v) = some M ∧ v ≤ M := by
  induction t generalizing v with
  | nil => exact ⟨v, rfl, le_refl v⟩
  | cons o t ih =>
      rw [List.foldl_cons]
      cases o with
      | none => exact ih v
      | some w =>
          obtain ⟨M, hM, hle⟩ := ih (max v w)
          exact ⟨M, hM, le_trans (le_max_left v w) hle⟩

lemma foldl_omax_le_of_mem (t : List (Option ℝ)) (acc : Option ℝ) (v : ℝ)
    (hv : some v ∈ t) : ∃ M, t.foldl omax acc = some M ∧ v ≤ M := by
  induction t generalizing acc with
  | nil => cases hv
  | cons o t ih =>
      rw [List.foldl_cons]
      rcases List.mem_cons.mp hv with he | hm
      · cases acc with
        | none =>
            rw [← he]
            exact foldl_omax_init_le t v
        | some u =>
            rw [← he]
            obtain ⟨M, hM, hle⟩ := foldl_omax_init_le t (max u v)
            exact ⟨M, hM, le_trans (le_max_right u v) hle⟩
      · exact ih (omax acc o) hm

lemma foldl_omax_mem (t : List (Option ℝ)) (acc : Option ℝ) :
    t.foldl omax acc ∈ acc :: t := by
  induction t generalizing acc with
  | nil => exact List.mem_singleton.mpr rfl
  | cons o t ih =>
      rw [List.foldl_cons]
      rcases List.mem_cons.mp (ih (omax acc o)) with he | hm
      · rcases omax_choice acc o with hc | hc
        · exact List.mem_cons.mpr (Or.inl (he.trans hc))
        · exact List.mem_cons.mpr (Or.inr (List.mem_cons.mpr (Or.inl (he.trans hc))))
      · exact List.mem_cons.mpr (Or.inr (List.mem_cons.mpr (Or.inr hm)))

/-- Every finite element of the array is bounded by the value the maximum
fold returns. -/
lemma omax_fold_ub (h : Option ℝ) (t : List (Option ℝ)) (M v : ℝ)
    (hM : t.foldl omax h = some M) (hv : some v ∈ h :: t) : v ≤ M := by
  rcases List.mem_cons.mp hv with he | hm
  · rw [← he] at hM
    obtain ⟨M', hM', hle⟩ := foldl_omax_init_le t v
    rw [hM] at hM'
    obtain rfl : M = M' := Option.some.inj hM'
    exact hle
  · obtain ⟨M', hM', hle⟩ := foldl_omax_le_of_mem t h v hm
    rw [hM] at hM'
    obtain rfl : M = M' := Option.some.inj hM'
    exact hle

lemma listSum_map_finite (l : List ℝ) (x : ℝ) :
    (l.map F.finite).foldl fadd (F.finite x) = F.finite (x + l.sum) := by
  induction l generalizing x with
  | nil => rw [List.map_nil, List.foldl_nil, List.sum_nil, add_zero]
  | cons y t ih =>
      rw [List.map_cons, List.foldl_cons, List.sum_cons]
      show (t.map F.finite).foldl fadd (F.finite (x + y)) = _
      rw [ih (x + y), add_assoc]

lemma maskZero_fexp_nonpos {x : ℝ} (hx : x ≤ 0) :
    maskZero (fexp (F.finite x)) =
      F.finite (if Real.exp x < minPos then epsR else Real.exp x) := by
  by_cases hu : Real.exp x < minPos
  · rw [fexp, if_pos hu, maskZero_zero, if_pos hu]
  · have hov : ¬ maxFin < Real.exp x := by
      have h1 : Real.exp x ≤ 1 := Real.exp_le_one_iff.mpr hx
      have h2 : (1 : ℝ) < maxFin := by rw [maxFin]; norm_num
      exact not_lt.mpr (h1.trans h2.le)
    rw [fexp, if_neg hu, if_neg hov, if_neg hu, maskZero,
      if_neg (fun hh => Real.exp_ne_zero x (F.finite.inj hh))]

lemma fsub_ofOpt (o : Option ℝ) (M : ℝ) :
    fsub (ofOpt o) (F.finite M) = ofOpt (o.map fun v => v - M) := by
  cases o with
  | none => rfl
  | some v =>
      show F.finite (v + -M) = F.finite (v - M)
      rw [← sub_eq_add_neg]

lemma maskZero_fexp_ofOpt (o : Option ℝ) (ho : ∀ y : ℝ, o = some y → y ≤ 0) :
    maskZero (fexp (ofOpt o)) = F.finite (maskedExpOpt o) := by
  cases o with
  | none => exact maskZero_zero
  | some y => exact maskZero_fexp_nonpos (ho y rfl)

lemma exp_mask_zero_map_ofOpt (l : List (Option ℝ))
    (hl : ∀ o ∈ l, ∀ y : ℝ, o = some y → y ≤ 0) :
    exp_mask_zero (l.map ofOpt) = (l.map maskedExpOpt).map F.finite := by
  rw [exp_mask_zero, List.map_map, List.map_map, List.map_map]
  exact List.map_congr_left fun o ho => maskZero_fexp_ofOpt o (hl o ho)

lemma sum_map_add_const {α : Type} (l : List α) (f : α → ℝ) (C : ℝ) :
    (l.map fun x => f x + C).sum = (l.map f).sum + l.length * C := by
  induction l with
  | nil => simp
  | cons y t ih =>
      rw [List.map_cons, List.map_cons, List.sum_cons, List.sum_cons, ih, List.length_cons]
      push_cast
      ring

lemma expOpt_nonneg (o : Option ℝ) : 0 ≤ expOpt o := by
  cases o with
  | none => exact le_refl 0
  | some v => exact (Real.exp_pos v).le

/-- Pointwise comparison of the masked against the exact exponential:
masking a term only ever raises it, and by at most machine epsilon. -/
lemma expOpt_le_maskedExpOpt (o : Option ℝ) :
    expOpt o ≤ maskedExpOpt o ∧ maskedExpOpt o ≤ expOpt o + epsR := by
  cases o with
  | none =>
      constructor
      · exact epsR_pos.le
      · show epsR ≤ 0 + epsR
        rw [zero_add]
  | some y =>
      constructor
      · show Real.exp y ≤ if Real.exp y < minPos then epsR else Real.exp y
        by_cases hu : Real.exp y < minPos
        · rw [if_pos hu]
          exact (hu.trans_le minPos_le_epsR).le
        · rw [if_neg hu]
      · show (if Real.exp y < minPos then epsR else Real.exp y) ≤ Real.exp y + epsR
        by_cases hu : Real.exp y < minPos
        · rw [if_pos hu]
          exact le_add_of_nonneg_left (Real.exp_nonneg y)
        · rw [if_neg hu]
          exact le_add_of_nonneg_right epsR_pos.le

lemma sum_map_expOpt_factor (l : List (Option ℝ)) (M : ℝ) :
    (l.map expOpt).sum =
      Real.exp M * ((l.map (Option.map fun v => v - M)).map expOpt).sum := by
  induction l with
  | nil => simp
  | cons o t ih =>
      rw [List.map_cons, List.map_cons, List.map_cons, List.sum_cons, List.sum_cons, ih,
        mul_add]
      congr 1
      cases o with
      | none =>
          show (0 : ℝ) = Real.exp M * 0
          rw [mul_zero]
      | some v =>
          show Real.exp v = Real.exp M * Real.exp (v - M)
          rw [← Real.exp_add, show M + (v - M) = v from by ring]

/-- Claim C7 counterexample: the premise "at least one finite element per
reduction slice" is not enough.  On `[0.0, inf]` — which has the finite
element `0.0` — the max-subtraction computes `inf - inf = nan`, so
`logsumexp` returns NaN, while `log(sum(exp([0.0, inf]))) = inf`. -/
theorem c7_counterexample :
    logsumexp [F.finite 0, F.posInf] = Except.ok F.nan ∧ F.nan ≠ F.posInf := by
  constructor
  · show Except.ok (fadd (flog (listSum [maskZero (F.finite 0), maskZero F.nan]))
      F.posInf) = Except.ok F.nan
    rw [maskZero_zero, maskZero_nan]
    rfl
  · simp

/-- Evaluation of `logsumexp` on a nonempty array of finite-or-`-inf`
values with at least one finite element (so the maximum fold returns the
finite value `M`): the result is `log(Σ masked-exp(xᵢ - M)) + M`,
provided the masked sum is positive (it always is; the caller supplies
the proof). -/
lemma logsumexp_map_ofOpt (h : Option ℝ) (t : List (Option ℝ)) (M : ℝ)
    (hM : t.foldl omax h = some M)
    (hpos : 0 < (((h :: t).map (Option.map fun v => v - M)).map maskedExpOpt).sum) :
    logsumexp ((h :: t).map ofOpt) = Except.ok (F.finite
      (Real.log ((((h :: t).map (Option.map fun v => v - M)).map maskedExpOpt).sum)
        + M)) := by
  rw [List.map_cons, logsumexp_cons]
  have hfold : (t.map ofOpt).foldl fmax (ofOpt h) = F.finite M := by
    rw [foldl_fmax_map_ofOpt, hM]
    rfl
  rw [hfold]
  have htail : (t.map ofOpt).map (fun x => fsub x (F.finite M)) =
      (t.map (Option.map fun v => v - M)).map ofOpt := by
    rw [List.map_map, List.map_map]
    exact List.map_congr_left fun o _ => fsub_ofOpt o M
  have hshift : (ofOpt h :: t.map ofOpt).map (fun x => fsub x (F.finite M)) =
      ((h :: t).map (Option.map fun v => v - M)).map ofOpt := by
    rw [List.map_cons, List.map_cons, List.map_cons, fsub_ofOpt h M, htail]
  rw [hshift]
  rw [exp_mask_zero_map_ofOpt _ (fun o ho y hy => ?_)]
  · rw [listSum, listSum_map_finite, zero_add, flog_pos hpos]
    rfl
  · obtain ⟨o', ho', rfl⟩ := List.mem_map.mp ho
    cases o' with
    | none => simp at hy
    | some v =>
        obtain rfl : v - M = y := Option.some.inj hy
        exact sub_nonpos.mpr (omax_fold_ub h t M v hM ho')

/-- The glue analysis: the masked max-subtracted sum is at least 1 (the
maximal finite element contributes `exp(0) = 1`), and the computed value
differs from the true log-sum-exp by at most `n·eps` — each `-inf` term
contributes `eps` instead of `0`, each underflowed finite term `eps`
instead of its true exponential. -/
lemma log_masked_sum_close (h : Option ℝ) (t : List (Option ℝ)) (M : ℝ)
    (hM : t.foldl omax h = some M) :
    1 ≤ (((h :: t).map (Option.map fun v => v - M)).map maskedExpOpt).sum ∧
    |Real.log ((((h :: t).map (Option.map fun v => v - M)).map maskedExpOpt).sum) + M -
      Real.log (((h :: t).map expOpt).sum)| ≤ (h :: t).length * epsR := by
  set l2 : List (Option ℝ) := (h :: t).map (Option.map fun v => v - M) with hl2
  set S : ℝ := (l2.map maskedExpOpt).sum with hS
  set Strue : ℝ := (l2.map expOpt).sum with hStrue
  have hle : Strue ≤ S := List.sum_le_sum fun o _ => (expOpt_le_maskedExpOpt o).1
  have hup : S ≤ Strue + (h :: t).length * epsR := by
    have h1 : S ≤ (l2.map fun o => expOpt o + epsR).sum :=
      List.sum_le_sum fun o _ => (expOpt_le_maskedExpOpt o).2
    have h2 : (l2.map fun o => expOpt o + epsR).sum = Strue + l2.length * epsR :=
      sum_map_add_const l2 expOpt epsR
    have h3 : l2.length = (h :: t).length := by rw [hl2, List.length_map]
    rw [h2, h3] at h1
    exact h1
  have hStrue1 : (1 : ℝ) ≤ Strue := by
    have h1 : some M ∈ h :: t := by
      have hmem := foldl_omax_mem t h
      rwa [hM] at hmem
    have h2 : Option.map (fun v => v - M) (some M) ∈ l2 := by
      rw [hl2]
      exact List.mem_map_of_mem _ h1
    have h3 : expOpt (Option.map (fun v => v - M) (some M)) ∈ l2.map expOpt :=
      List.mem_map_of_mem _ h2
    have h4 : expOpt (Option.map (fun v => v - M) (some M)) = 1 := by
      show Real.exp (M - M) = 1
      rw [sub_self, Real.exp_zero]
    rw [h4] at h3
    refine List.single_le_sum (fun x hx => ?_) 1 h3
    obtain ⟨o, _, rfl⟩ := List.mem_map.mp hx
    exact expOpt_nonneg o
  have hS1 : (1 : ℝ) ≤ S := hStrue1.trans hle
  have hSpos : (0 : ℝ) < S := zero_lt_one.trans_le hS1
  have hStruepos : (0 : ℝ) < Strue := zero_lt_one.trans_le hStrue1
  refine ⟨hS1, ?_⟩
  have hfactor : ((h :: t).map expOpt).sum = Real.exp M * Strue := by
    rw [sum_map_expOpt_factor (h :: t) M, hStrue, hl2]
  rw [hfactor, Real.log_mul (Real.exp_ne_zero M) hStruepos.ne', Real.log_exp]
  have habs : Real.log S + M - (M + Real.log Strue) = Real.log S - Real.log Strue := by
    ring
  rw [habs]
  have hnonneg : 0 ≤ Real.log S - Real.log Strue :=
    sub_nonneg.mpr (Real.log_le_log hStruepos hle)
  have hbound : Real.log S - Real.log Strue ≤ (h :: t).length * epsR := by
    rw [← Real.log_div hSpos.ne' hStruepos.ne']
    calc Real.log (S / Strue) ≤ S / Strue - 1 :=
          Real.log_le_sub_one_of_pos (div_pos hSpos hStruepos)
      _ = (S - Strue) / Strue := by rw [sub_div, div_self hStruepos.ne']
      _ ≤ S - Strue := div_le_self (by linarith) hStrue1
      _ ≤ (h :: t).length * epsR := by linarith
  rw [abs_of_nonneg hnonneg]
  exact hbound

/-- Claim C7 (amended): for every array whose elements are finite or
`-inf` (the finite-or-`-inf` values are exactly the `ofOpt` images) with
at least one finite element per reduction slice, `logsumexp(a)` — roll
axis to the front (identity in 1-D), subtract the slice maximum, apply
`exp_mask_zero`, sum, log, add the maximum back — succeeds with a finite
value within floating-point tolerance of `log(sum(exp(a)))` (where
`exp(-inf) = 0`): the deviation is at most `n·eps`, coming only from the
epsilon masking of exact-zero exponentials (`-inf` elements and
underflowed terms; the max-subtracted sum is at least `exp(0) = 1`, so
each masked term perturbs it by at most `eps`).  The original premise
"at least one finite element" is insufficient only for the excluded
`+inf`/NaN elements: see the counterexample with an additional `+inf`
element. -/
theorem c7_logsumexp_eq_log_sum_exp (l : List (Option ℝ))
    (hex : ∃ v : ℝ, some v ∈ l) :
    ∃ r : ℝ, logsumexp (l.map ofOpt) = Except.ok (F.finite r) ∧
      |r - Real.log ((l.map expOpt).sum)| ≤ l.length * epsR := by
  obtain ⟨v, hv⟩ := hex
  obtain ⟨h, t, rfl⟩ := List.exists_cons_of_ne_nil (List.ne_nil_of_mem hv)
  have hMex : ∃ M, t.foldl omax h = some M := by
    rcases List.mem_cons.mp hv with he | hm
    · obtain ⟨M, hMf, _⟩ := foldl_omax_init_le t v
      refine ⟨M, ?_⟩
      rw [← he]
      exact hMf
    · obtain ⟨M, hMf, _⟩ := foldl_omax_le_of_mem t h v hm
      exact ⟨M, hMf⟩
  obtain ⟨M, hM⟩ := hMex
  obtain ⟨hS1, hclose⟩ := log_masked_sum_close h t M hM
  exact ⟨_, logsumexp_map_ofOpt h t M hM (zero_lt_one.trans_le hS1), hclose⟩

/-- Witness for the amended C7 at the array `[0.0, -inf]`, which contains
a `-inf` element alongside the finite `0.0`. -/
theorem c7_witness :
    ∃ r : ℝ, logsumexp ([some (0 : ℝ), none].map ofOpt) = Except.ok (F.finite r) ∧
      |r - Real.log (([some (0 : ℝ), none].map expOpt).sum)| ≤
        [some (0 : ℝ), none].length * epsR :=
  c7_logsumexp_eq_log_sum_exp [some 0, none] ⟨0, by simp⟩

end HmmUtils
